import Mathlib

/-
Verification of the trading-strategy backtester (src/backtest.py).

Shallow embedding conventions:
- Market data reaches the simulator only through the bars' close prices
  (the `Close` column); a bars series is therefore modelled as `List ℚ` of
  close prices.  Timestamps are used in the Python code only to format the
  `date` string of a trade record; no claim mentions dates, so the `Trade`
  model omits that field.
- Python floats are idealised as exact rationals.  The IEEE special values
  that the metrics code manipulates through numpy (inf / nan produced by
  dividing by a zero portfolio value, and the fact that `~np.isnan` keeps
  infinities) are modelled exactly by the `FVal` type below.
- Python's `round(x, n)` (round half to even on the decimal value) is
  modelled by `roundHalfEven`; the concrete values appearing in theorems
  never sit on a representation boundary.
- A Python exception escaping a function is modelled as `none`.  In
  `run_backtest` the possible exceptions are an out-of-range access
  `signals[i]` (signal series shorter than the bars series) and a
  `ZeroDivisionError` in `cash / price` when a buy executes at a zero
  close price.
-/

namespace StratTester

/-- Trade actions, the `action` field of a trade dict (`run_backtest`). -/
inductive Action where
  | BUY : Action
  | SELL : Action
deriving DecidableEq, Repr

/-- A trade record as appended by `run_backtest` (src/backtest.py lines
117-130): the rounded execution price and rounded share count.  The
formatted `date` string is omitted (see the header comment). -/
structure Trade where
  action : Action
  price : ℚ
  shares : ℚ
deriving DecidableEq, Repr

/-- The loop state of `run_backtest` (lines 98-106): `position` (0 or 1),
`cash`, `shares`, the trade log built so far and the portfolio values
recorded so far. -/
structure SimState where
  position : ℤ
  cash : ℚ
  shares : ℚ
  trades : List Trade
  values : List ℚ
deriving DecidableEq, Repr

/-- Round half to even to an integer, the tie-breaking rule of Python's
built-in `round`. -/
def roundHalfEven (x : ℚ) : ℤ :=
  let n := ⌊x⌋
  let frac := x - n
  if frac < 1 / 2 then n
  else if 1 / 2 < frac then n + 1
  else if n % 2 = 0 then n else n + 1

/-- Python's `round(x, 2)`. -/
def round2 (x : ℚ) : ℚ := (roundHalfEven (x * 100) : ℚ) / 100

/-- Python's `round(x, 4)`. -/
def round4 (x : ℚ) : ℚ := (roundHalfEven (x * 10000) : ℚ) / 10000

/-- Python's `round(x, 1)`. -/
def round1 (x : ℚ) : ℚ := (roundHalfEven (x * 10) : ℚ) / 10

/-- The mark-to-market value computed at the end of each loop iteration of
`run_backtest` (lines 134-138): `shares * price` when long, else `cash`. -/
def barValue (st : SimState) (price : ℚ) : ℚ :=
  if st.position = 1 then st.shares * price else st.cash

/-- The signal-handling part of one loop iteration of `run_backtest`
(lines 112-132).  A buy at a zero close price raises `ZeroDivisionError`
in Python (`shares = cash / price`), modelled as `none`. -/
def tradePhase (st : SimState) (price : ℚ) (signal : ℤ) : Option SimState :=
  if signal = 1 ∧ st.position = 0 then
    if price = 0 then none
    else
      some { position := 1
             cash := 0
             shares := st.cash / price
             trades := st.trades ++ [⟨Action.BUY, round2 price, round4 (st.cash / price)⟩]
             values := st.values }
  else if signal = -1 ∧ st.position = 1 then
    some { position := 0
           cash := st.shares * price
           shares := 0
           trades := st.trades ++ [⟨Action.SELL, round2 price, round4 st.shares⟩]
           values := st.values }
  else some st

/-- One full loop iteration of `run_backtest` (lines 108-140): handle the
signal, then append the bar's mark-to-market value. -/
def simStep (st : SimState) (price : ℚ) (signal : ℤ) : Option SimState :=
  (tradePhase st price signal).map
    (fun s => { s with values := s.values ++ [barValue s price] })

/-- The loop of `run_backtest` over the remaining bars.  `signals[i]` on a
too-short signal series raises `IndexError` in Python, modelled as `none`
when the signal list runs out before the price list. -/
def runBacktestAux : List ℚ → List ℤ → SimState → Option SimState
  | [], _, st => some st
  | _ :: _, [], _ => none
  | p :: ps, sg :: sgs, st => (simStep st p sg).bind (runBacktestAux ps sgs)

/-- The initial state of `run_backtest` (lines 99-102):
`position = 0`, `cash = initial_capital`, `shares = 0`, no trades. -/
def initState (C : ℚ) : SimState :=
  { position := 0, cash := C, shares := 0, trades := [], values := [] }

/-- `run_backtest(data, signals, initial_capital)` (lines 94-149): returns
the portfolio-value trajectory and the trade log, or `none` if an
exception escapes (re-raised generically by the `except` block). -/
def run_backtest (prices : List ℚ) (signals : List ℤ) (C : ℚ) :
    Option (List ℚ × List Trade) :=
  (runBacktestAux prices signals (initState C)).map (fun st => (st.values, st.trades))

/-- The sequence of loop states of `run_backtest`, paired with the close
price of the bar each state was produced at.  This exposes the per-bar
intermediate states of `runBacktestAux` for stating invariants. -/
def simStates : List ℚ → List ℤ → SimState → List (SimState × ℚ)
  | [], _, _ => []
  | _ :: _, [], _ => []
  | p :: ps, sg :: sgs, st =>
    match simStep st p sg with
    | none => []
    | some st1 => (st1, p) :: simStates ps sgs st1

/-- `calculate_buy_hold_benchmark(data, initial_capital)` (lines 151-195):
returns the rounded buy-and-hold total return together with the
buy-and-hold portfolio trajectory `shares * close[i]`.  Failure cases in
the Python code: `data.iloc[0]` on an empty frame (`IndexError`),
`initial_capital / start_price` with a zero start price, and
`(final_value - C) / C` with a zero capital (`ZeroDivisionError`).  The
remaining fields of the returned dict (sharpe ratio, max drawdown, final
value) are referenced by no claim and are omitted from the model. -/
def calculate_buy_hold_benchmark (prices : List ℚ) (C : ℚ) : Option (ℚ × List ℚ) :=
  match prices with
  | [] => none
  | p0 :: rest =>
    if p0 = 0 then none
    else if C = 0 then none
    else
      let shares := C / p0
      let finalValue := shares * List.getLastD rest p0
      some (round2 ((finalValue - C) / C * 100), (p0 :: rest).map (fun p => shares * p))

example : run_backtest [100, 110, 105] [1, 0, -1] 10000 =
    some ([10000, 11000, 10500],
      [⟨Action.BUY, 100, 100⟩, ⟨Action.SELL, 105, 100⟩]) := by
  norm_num [run_backtest, runBacktestAux, simStep, tradePhase, initState, barValue,
    round2, round4, roundHalfEven]

example : run_backtest [] [] 10000 = some ([], []) := by
  norm_num [run_backtest, runBacktestAux, initState]

example : calculate_buy_hold_benchmark [100, 110] 10000 = some (10, [10000, 11000]) := by
  norm_num [calculate_buy_hold_benchmark, round2, roundHalfEven]

/-- Running maximum with accumulator: `cummax l m` is
`np.maximum.accumulate` of `l` started from the running maximum `m`. -/
def cummax : List ℚ → ℚ → List ℚ
  | [], _ => []
  | x :: xs, m => max m x :: cummax xs (max m x)

/-- `peak = np.maximum.accumulate(portfolio_value)` (line 231). -/
def peaks : List ℚ → List ℚ
  | [] => []
  | x :: xs => cummax (x :: xs) x

/-- `np.min` of a list; the empty case is unreachable where this is used
(numpy raises on an empty array, and `calculate_metrics` has already
failed on an empty trajectory by then). -/
def minList : List ℚ → ℚ
  | [] => 0
  | x :: xs => xs.foldl min x

/-- `drawdown = (portfolio_value - peak) / peak * 100` (line 232). -/
def drawdowns (pv : List ℚ) : List ℚ :=
  List.zipWith (fun v m => (v - m) / m * 100) pv (peaks pv)

/-- `max_drawdown = np.min(drawdown)` (line 233), before the final
rounding at record construction. -/
def maxDrawdown (pv : List ℚ) : ℚ :=
  minList (drawdowns pv)

/-- An IEEE float value as produced by the numpy returns pipeline of
`calculate_metrics` (lines 214-216): either an exact finite value, an
infinity, or NaN.  Finite values are exact rationals (the idealisation of
the header comment). -/
inductive FVal where
  | fin (q : ℚ) : FVal
  | pinf : FVal
  | ninf : FVal
  | nan : FVal
deriving DecidableEq, Repr

/-- `np.isnan`. -/
def FVal.isNan : FVal → Bool
  | .nan => true
  | _ => false

/-- `np.isfinite`. -/
def FVal.isFinite : FVal → Bool
  | .fin _ => true
  | _ => false

/-- The finite part of a float value, `some` exactly on finite values. -/
def FVal.finPart : FVal → Option ℚ
  | .fin q => some q
  | _ => none

/-- IEEE addition restricted to the values arising here. -/
def FVal.add : FVal → FVal → FVal
  | .nan, _ => .nan
  | _, .nan => .nan
  | .pinf, .ninf => .nan
  | .ninf, .pinf => .nan
  | .pinf, _ => .pinf
  | _, .pinf => .pinf
  | .ninf, _ => .ninf
  | _, .ninf => .ninf
  | .fin a, .fin b => .fin (a + b)

/-- IEEE negation. -/
def FVal.neg : FVal → FVal
  | .fin q => .fin (-q)
  | .pinf => .ninf
  | .ninf => .pinf
  | .nan => .nan

/-- IEEE subtraction, `a + (-b)`. -/
def FVal.sub (a b : FVal) : FVal := a.add b.neg

/-- IEEE squaring (used for the deviations inside `np.std`). -/
def FVal.sq : FVal → FVal
  | .fin q => .fin (q * q)
  | .pinf => .pinf
  | .ninf => .pinf
  | .nan => .nan

/-- IEEE division of a float value by a (nonnegative integer) length, as
in `np.mean = sum / len`; a zero length gives `0/0 = NaN` (numpy's
`np.mean` of an empty array is NaN). -/
def FVal.divNat : FVal → ℕ → FVal
  | _, 0 => .nan
  | .fin q, n + 1 => .fin (q / ((n + 1 : ℕ) : ℚ))
  | .pinf, _ + 1 => .pinf
  | .ninf, _ + 1 => .ninf
  | .nan, _ + 1 => .nan

/-- numpy summation over the list. -/
def FVal.sumL : List FVal → FVal
  | [] => .fin 0
  | x :: xs => x.add (FVal.sumL xs)

/-- `np.mean(l)`. -/
def FVal.meanL (l : List FVal) : FVal :=
  (FVal.sumL l).divNat l.length

/-- The population variance computed inside `np.std(l)` (numpy's default
`ddof=0`): the mean of the squared deviations from the mean. -/
def FVal.varL (l : List FVal) : FVal :=
  FVal.meanL (l.map (fun x => FVal.sq (x.sub (FVal.meanL l))))

/-- The comparison `np.std(l) > 0`, expressed on the variance:
`sqrt v > 0` is `v > 0` for finite nonnegative `v`, `np.sqrt` of a
negative value is NaN (comparison false), `sqrt inf = inf > 0` is true,
and any comparison with NaN is false. -/
def FVal.stdPos : FVal → Bool
  | .fin q => decide (0 < q)
  | .pinf => true
  | .ninf => false
  | .nan => false

/-- The real number denoted by a float value, with junk value `0` for the
non-finite cases (only applied where those are proved unreachable). -/
noncomputable def FVal.toR : FVal → ℝ
  | .fin q => (q : ℝ)
  | _ => 0

/-- One per-step ratio `(cur - prev) / prev` of the returns series
`np.diff(portfolio_value) / portfolio_value[:-1]` (line 215), with the
IEEE outcomes for a zero previous value: `x/0` is `+inf` for `x > 0`,
`-inf` for `x < 0` and NaN for `0/0`. -/
def stepRatio (prev cur : ℚ) : FVal :=
  if prev = 0 then
    if 0 < cur - prev then .pinf
    else if cur - prev < 0 then .ninf
    else .nan
  else .fin ((cur - prev) / prev)

/-- The filtered returns sample `returns[~np.isnan(returns)]`
(lines 215-216): NaN entries are removed, infinities are kept. -/
def strategyReturns (pv : List ℚ) : List FVal :=
  (List.zipWith stepRatio pv pv.tail).filter (fun x => !x.isNan)

/-- Mean of a list of rationals, `sum / len`. -/
def meanQ (qs : List ℚ) : ℚ :=
  qs.sum / qs.length

/-- Population variance of a list of rationals. -/
def varQ (qs : List ℚ) : ℚ :=
  (qs.map (fun q => (q - meanQ qs) ^ 2)).sum / qs.length

/-- The `sharpe_ratio` value computed by `calculate_metrics`
(lines 219-226): if the filtered returns sample is non-empty and
`np.std` of it is positive, `mean * 252 * 24 / (std * sqrt (252 * 24))`,
else `0`.  Inside the guarded branch the sample is provably all-finite
(a positive finite variance excludes infinities and NaNs), so the mean
and variance are taken through `FVal.toR`. -/
noncomputable def sharpeValue (pv : List ℚ) : ℝ :=
  let rs := strategyReturns pv
  if 0 < rs.length ∧ FVal.stdPos (FVal.varL rs) = true then
    FVal.toR (FVal.meanL rs) * (252 * 24) /
      (Real.sqrt (FVal.toR (FVal.varL rs)) * Real.sqrt (252 * 24))
  else 0

/-- Modelled from the spec (§4.3, claim C7's wording): the sharpe ratio
computed on the sample with every non-finite ratio excluded, used to
compare the claim's prescription against `sharpeValue`. -/
noncomputable def sharpeSpecFiltered (pv : List ℚ) : ℝ :=
  let qs := (List.zipWith stepRatio pv pv.tail).filterMap FVal.finPart
  if 0 < qs.length ∧ 0 < varQ qs then
    meanQ qs * (252 * 24) / (Real.sqrt (varQ qs) * Real.sqrt (252 * 24))
  else 0

/-- The metrics record built by `calculate_metrics` (lines 243-252), with
all numeric fields rounded at construction.  The `sharpe_ratio` field
(the only irrational-valued one) is modelled by the separate function
`sharpeValue`; the `benchmark` sub-record is modelled by the
`calculate_buy_hold_benchmark` result it is built from. -/
structure Metrics where
  total_return : ℚ
  max_drawdown : ℚ
  win_rate : ℚ
  avg_trade_return : ℚ
  final_value : ℚ
  alpha : ℚ
deriving DecidableEq, Repr

/-- `calculate_metrics(portfolio_value, data, initial_capital)`
(lines 197-255): computes the buy-and-hold benchmark first (its failures
propagate), then the strategy metrics; `portfolio_value[-1]` on an empty
trajectory raises (`none`).  Returns the metrics record and the
benchmark trajectory, as the Python function does. -/
def calculate_metrics (pv : List ℚ) (prices : List ℚ) (C : ℚ) :
    Option (Metrics × List ℚ) :=
  match calculate_buy_hold_benchmark prices C with
  | none => none
  | some (bhTotal, bhTraj) =>
    match pv.getLast? with
    | none => none
    | some last =>
      let total_return := (last - C) / C * 100
      some ({ total_return := round2 total_return
              max_drawdown := round2 (maxDrawdown pv)
              win_rate := 0
              avg_trade_return := 0
              final_value := round2 last
              alpha := round2 (total_return - bhTotal) }, bhTraj)

example : (calculate_metrics [10000, 11000, 10500] [100, 110, 105] 10000).map
    (fun r => r.1.total_return) = some 5 := by
  norm_num [calculate_metrics, calculate_buy_hold_benchmark, round2, roundHalfEven]

/-- The report built by `run_permutation_test` (lines 303-311).  The
`random_returns_std` field (`round(np.std(random_returns), 2)`, the only
irrational-valued one) is referenced by no claim and is omitted. -/
structure PermReport where
  original_return : ℚ
  random_returns_mean : ℚ
  p_value : ℚ
  percentile : ℚ
  num_permutations : ℕ
  significant : Bool
deriving DecidableEq, Repr

/-- The returns of the successful shuffled runs (the loop of lines
271-287): each iteration runs `run_backtest` on one shuffled signal
series — with the DEFAULT capital 10000, since line 277 does not forward
`initial_capital` — and records `(pv[-1] - C) / C * 100`; iterations
whose backtest raises are skipped (`except: continue`). -/
def successfulReturns (prices : List ℚ) (shuffles : List (List ℤ)) (C : ℚ) : List ℚ :=
  shuffles.filterMap (fun sg =>
    (run_backtest prices sg 10000).bind (fun r =>
      r.1.getLast?.map (fun last => (last - C) / C * 100)))

/-- `run_permutation_test(data, signals, num_permutations,
initial_capital)` (lines 257-314).

The `shuffles` parameter stands for the successive draws of
`np.random.permutation(signals)` (line 274), one per loop iteration, so
`shuffles.length` is the requested `num_permutations`.  These draws are a
free input of the model rather than a function of the seed because the
code never seeds numpy's global generator: line 266 calls
`random.seed(42)`, which seeds Python's unrelated `random` module, while
the shuffling draws from `np.random`'s unseeded global state.

Failures modelled as `none`: the original backtest raising, the
`portfolio_value[-1]` access on an empty trajectory, the division by a
zero `initial_capital` in the return formula (line 262), and zero
successful permutations (line 292).  Note line 261 also calls
`run_backtest` with the default capital 10000 instead of
`initial_capital`, while line 262 divides by `initial_capital`. -/
def run_permutation_test (prices : List ℚ) (signals : List ℤ)
    (shuffles : List (List ℤ)) (C : ℚ) : Option PermReport :=
  match run_backtest prices signals 10000 with
  | none => none
  | some (pv, _) =>
    match pv.getLast? with
    | none => none
    | some last =>
      if C = 0 then none
      else
        let original_return := (last - C) / C * 100
        let rr := successfulReturns prices shuffles C
        if rr.length = 0 then none
        else
          let better := (rr.filter (fun x => original_return ≤ x)).length
          let p := (better : ℚ) / rr.length
          some { original_return := round2 original_return
                 random_returns_mean := round2 (rr.sum / rr.length)
                 p_value := round4 p
                 percentile := round1 ((1 - p) * 100)
                 num_permutations := rr.length
                 significant := decide (p < 1 / 20) }

example : (run_permutation_test [100, 110, 105] [1, 0, -1] [[1, 0, -1]] 10000).map
    (fun r => r.p_value) = some 1 := by
  norm_num [run_permutation_test, successfulReturns, run_backtest, runBacktestAux,
    simStep, tradePhase, initState, barValue, round2, round4, round1, roundHalfEven,
    List.filterMap_cons]

/-- Number of BUY entries in a trade log. -/
def countBuys (tr : List Trade) : ℕ :=
  (tr.filter (fun t => decide (t.action = Action.BUY))).length

/-- Number of SELL entries in a trade log. -/
def countSells (tr : List Trade) : ℕ :=
  (tr.filter (fun t => decide (t.action = Action.SELL))).length

/-- The loop invariant of `run_backtest`: the position flag is 0 with no
shares held, or 1 with no cash held; the trade log alternates
BUY, SELL, BUY, ... ; and the BUY count exceeds the SELL count exactly
when a position is open. -/
def StateInv (st : SimState) : Prop :=
  ((st.position = 0 ∧ st.shares = 0) ∨ (st.position = 1 ∧ st.cash = 0))
  ∧ (∀ i (h : i < st.trades.length),
      (st.trades[i]).action = if i % 2 = 0 then Action.BUY else Action.SELL)
  ∧ countBuys st.trades = countSells st.trades + (if st.position = 1 then 1 else 0)

lemma length_eq_countBuys_add_countSells (tr : List Trade) :
    tr.length = countBuys tr + countSells tr := by
  induction tr with
  | nil => rfl
  | cons t ts ih =>
    obtain ⟨a, p, s⟩ := t
    cases a <;> simp [countBuys, countSells, List.filter_cons] at * <;> omega

lemma countBuys_append (tr tr2 : List Trade) :
    countBuys (tr ++ tr2) = countBuys tr + countBuys tr2 := by
  simp [countBuys, List.filter_append]

lemma countSells_append (tr tr2 : List Trade) :
    countSells (tr ++ tr2) = countSells tr + countSells tr2 := by
  simp [countSells, List.filter_append]

lemma stateInv_values (st : SimState) (v : List ℚ) :
    StateInv { st with values := v } ↔ StateInv st := Iff.rfl

lemma tradePhase_values (st : SimState) (p : ℚ) (sg : ℤ) (s1 : SimState)
    (h : tradePhase st p sg = some s1) : s1.values = st.values := by
  unfold tradePhase at h
  by_cases h1 : sg = 1 ∧ st.position = 0
  · rw [if_pos h1] at h
    by_cases hp : p = 0
    · rw [if_pos hp] at h
      exact absurd h (by simp)
    · rw [if_neg hp] at h
      injection h with h
      subst h
      rfl
  · rw [if_neg h1] at h
    by_cases h2 : sg = -1 ∧ st.position = 1
    · rw [if_pos h2] at h
      injection h with h
      subst h
      rfl
    · rw [if_neg h2] at h
      injection h with h
      subst h
      rfl

/-- A trade log that alternates actions and whose BUY/SELL counts match
the position remains so after one signal-handling step. -/
lemma stateInv_tradePhase (st : SimState) (p : ℚ) (sg : ℤ) (s1 : SimState)
    (hinv : StateInv st) (h : tradePhase st p sg = some s1) : StateInv s1 := by
  obtain ⟨hpos, halt, hcnt⟩ := hinv
  unfold tradePhase at h
  by_cases h1 : sg = 1 ∧ st.position = 0
  · -- buy executed
    rw [if_pos h1] at h
    by_cases hp : p = 0
    · rw [if_pos hp] at h
      exact absurd h (by simp)
    rw [if_neg hp] at h
    injection h with h
    subst h
    have hcnt0 : countBuys st.trades = countSells st.trades := by
      rw [h1.2] at hcnt
      simpa using hcnt
    have hlen : st.trades.length % 2 = 0 := by
      rw [length_eq_countBuys_add_countSells st.trades, hcnt0]
      omega
    refine ⟨Or.inr ⟨rfl, rfl⟩, ?_, ?_⟩
    · intro i hi
      simp only [List.length_append, List.length_cons, List.length_nil] at hi
      show (st.trades ++ [⟨Action.BUY, round2 p, round4 (st.cash / p)⟩])[i].action = _
      rcases Nat.lt_or_ge i st.trades.length with hlt | hge
      · rw [List.getElem_append_left hlt]
        exact halt i hlt
      · have hieq : i = st.trades.length := by omega
        subst hieq
        rw [List.getElem_concat_length]
        · simp [hlen]
        · rfl
    · show countBuys (st.trades ++ _) = countSells (st.trades ++ _) + _
      simp only [countBuys_append, countSells_append]
      have hb : countBuys [⟨Action.BUY, round2 p, round4 (st.cash / p)⟩] = 1 := by
        simp [countBuys]
      have hs : countSells [⟨Action.BUY, round2 p, round4 (st.cash / p)⟩] = 0 := by
        simp [countSells]
      simp only [hb, hs]
      rw [hcnt0]
      simp
  · rw [if_neg h1] at h
    by_cases h2 : sg = -1 ∧ st.position = 1
    · -- sell executed
      rw [if_pos h2] at h
      injection h with h
      subst h
      have hcnt1 : countBuys st.trades = countSells st.trades + 1 := by
        rw [h2.2] at hcnt
        simpa using hcnt
      have hlen : st.trades.length % 2 = 1 := by
        rw [length_eq_countBuys_add_countSells st.trades, hcnt1]
        omega
      refine ⟨Or.inl ⟨rfl, rfl⟩, ?_, ?_⟩
      · intro i hi
        simp only [List.length_append, List.length_cons, List.length_nil] at hi
        show (st.trades ++ [⟨Action.SELL, round2 p, round4 st.shares⟩])[i].action = _
        rcases Nat.lt_or_ge i st.trades.length with hlt | hge
        · rw [List.getElem_append_left hlt]
          exact halt i hlt
        · have hieq : i = st.trades.length := by omega
          subst hieq
          rw [List.getElem_concat_length]
          · simp [hlen]
          · rfl
      · show countBuys (st.trades ++ _) = countSells (st.trades ++ _) + _
        simp only [countBuys_append, countSells_append]
        have hb : countBuys [⟨Action.SELL, round2 p, round4 st.shares⟩] = 0 := by
          simp [countBuys]
        have hs : countSells [⟨Action.SELL, round2 p, round4 st.shares⟩] = 1 := by
          simp [countSells]
        simp only [hb, hs]
        rw [hcnt1]
        simp
    · -- no-op
      rw [if_neg h2] at h
      injection h with h
      subst h
      exact ⟨hpos, halt, hcnt⟩

lemma stateInv_simStep (st : SimState) (p : ℚ) (sg : ℤ) (st1 : SimState)
    (hinv : StateInv st) (h : simStep st p sg = some st1) : StateInv st1 := by
  unfold simStep at h
  rw [Option.map_eq_some'] at h
  obtain ⟨s1, hs1, rfl⟩ := h
  exact (stateInv_values s1 _).2 (stateInv_tradePhase st p sg s1 hinv hs1)

lemma simStep_values (st : SimState) (p : ℚ) (sg : ℤ) (st1 : SimState)
    (h : simStep st p sg = some st1) : st1.values = st.values ++ [barValue st1 p] := by
  unfold simStep at h
  rw [Option.map_eq_some'] at h
  obtain ⟨s1, hs1, rfl⟩ := h
  have hv : s1.values = st.values := tradePhase_values st p sg s1 hs1
  simp [hv, barValue]

lemma stateInv_simStates (ps : List ℚ) (sgs : List ℤ) (st : SimState)
    (hinv : StateInv st) :
    ∀ pr ∈ simStates ps sgs st, StateInv pr.1 := by
  induction ps generalizing sgs st with
  | nil => intro pr hpr; simp [simStates] at hpr
  | cons p ps ih =>
    intro pr hpr
    cases sgs with
    | nil => simp [simStates] at hpr
    | cons sg sgs =>
      unfold simStates at hpr
      cases hstep : simStep st p sg with
      | none => rw [hstep] at hpr; simp at hpr
      | some st1 =>
        rw [hstep] at hpr
        simp only [List.mem_cons] at hpr
        rcases hpr with rfl | hpr
        · exact stateInv_simStep st p sg st1 hinv hstep
        · exact ih sgs st1 (stateInv_simStep st p sg st1 hinv hstep) pr hpr

lemma values_runAux (ps : List ℚ) (sgs : List ℤ) (st stf : SimState)
    (h : runBacktestAux ps sgs st = some stf) :
    stf.values = st.values ++ (simStates ps sgs st).map (fun pr => barValue pr.1 pr.2) := by
  induction ps generalizing sgs st with
  | nil =>
    cases h
    simp [simStates]
  | cons p ps ih =>
    cases sgs with
    | nil => exact absurd h (by simp [runBacktestAux])
    | cons sg sgs =>
      unfold runBacktestAux at h
      rw [Option.bind_eq_some] at h
      obtain ⟨st1, hstep, haux⟩ := h
      have hiv := ih sgs st1 haux
      unfold simStates
      rw [hstep]
      simp only [List.map_cons]
      rw [hiv, simStep_values st p sg st1 hstep]
      simp

lemma stateInv_runAux (ps : List ℚ) (sgs : List ℤ) (st stf : SimState)
    (hinv : StateInv st) (h : runBacktestAux ps sgs st = some stf) : StateInv stf := by
  induction ps generalizing sgs st with
  | nil => cases h; exact hinv
  | cons p ps ih =>
    cases sgs with
    | nil => exact absurd h (by simp [runBacktestAux])
    | cons sg sgs =>
      unfold runBacktestAux at h
      rw [Option.bind_eq_some] at h
      obtain ⟨st1, hstep, haux⟩ := h
      exact ih sgs st1 (stateInv_simStep st p sg st1 hinv hstep) haux

lemma stateInv_initState (C : ℚ) : StateInv (initState C) := by
  refine ⟨Or.inl ⟨rfl, rfl⟩, ?_, ?_⟩
  · intro i hi
    simp [initState] at hi
  · simp [initState, countBuys, countSells]

/-- When the close price is nonzero, one loop iteration of `run_backtest`
cannot raise. -/
lemma simStep_isSome (st : SimState) (p : ℚ) (sg : ℤ) (hp : p ≠ 0) :
    ∃ st1, simStep st p sg = some st1 := by
  unfold simStep tradePhase
  by_cases h1 : sg = 1 ∧ st.position = 0
  · rw [if_pos h1, if_neg hp]
    exact ⟨_, rfl⟩
  · rw [if_neg h1]
    by_cases h2 : sg = -1 ∧ st.position = 1
    · rw [if_pos h2]
      exact ⟨_, rfl⟩
    · rw [if_neg h2]
      exact ⟨_, rfl⟩

lemma runAux_none_iff (ps : List ℚ) (sgs : List ℤ) (st : SimState)
    (hnz : ∀ p ∈ ps, p ≠ 0) :
    (runBacktestAux ps sgs st = none ↔ sgs.length < ps.length) := by
  induction ps generalizing sgs st with
  | nil => simp [runBacktestAux]
  | cons p ps ih =>
    cases sgs with
    | nil => simp [runBacktestAux]
    | cons sg sgs =>
      obtain ⟨st1, hstep⟩ := simStep_isSome st p sg (hnz p (List.mem_cons_self p ps))
      have hrest : ∀ q ∈ ps, q ≠ 0 := fun q hq => hnz q (List.mem_cons_of_mem p hq)
      unfold runBacktestAux
      rw [hstep]
      simp only [Option.some_bind, List.length_cons, Nat.add_lt_add_iff_right]
      exact ih sgs st1 hrest

/-- C1: at every bar of a successful `run_backtest` run, cash and shares
are never simultaneously positive, and each bar's recorded equity is the
cash balance when flat (with zero shares) and `shares * close` when long
(with zero cash); the returned trajectory consists exactly of these
per-bar equities. -/
theorem run_backtest_exclusive_position_invariant (prices : List ℚ) (signals : List ℤ)
    (C : ℚ) (traj : List ℚ) (trades : List Trade) (hC : 0 < C)
    (h : run_backtest prices signals C = some (traj, trades)) :
    traj = (simStates prices signals (initState C)).map (fun pr => barValue pr.1 pr.2)
    ∧ ∀ pr ∈ simStates prices signals (initState C),
        ¬(0 < pr.1.cash ∧ 0 < pr.1.shares)
        ∧ ((pr.1.position = 0 ∧ pr.1.shares = 0 ∧ barValue pr.1 pr.2 = pr.1.cash)
           ∨ (pr.1.position = 1 ∧ pr.1.cash = 0
              ∧ barValue pr.1 pr.2 = pr.1.shares * pr.2)) := by
  constructor
  · unfold run_backtest at h
    rw [Option.map_eq_some'] at h
    obtain ⟨stf, haux, heq⟩ := h
    injection heq with e1 e2
    subst e1
    have hv := values_runAux prices signals (initState C) stf haux
    simpa [initState] using hv
  · intro pr hpr
    have hinv := stateInv_simStates prices signals (initState C)
      (stateInv_initState C) pr hpr
    obtain ⟨hpos, _, _⟩ := hinv
    rcases hpos with ⟨h0, hsh⟩ | ⟨h1, hca⟩
    · refine ⟨?_, Or.inl ⟨h0, hsh, ?_⟩⟩
      · rintro ⟨_, hs⟩
        rw [hsh] at hs
        exact lt_irrefl 0 hs
      · simp [barValue, h0]
    · refine ⟨?_, Or.inr ⟨h1, hca, ?_⟩⟩
      · rintro ⟨hc, _⟩
        rw [hca] at hc
        exact lt_irrefl 0 hc
      · simp [barValue, h1]

theorem run_backtest_exclusive_position_invariant_witness :
    0 < (10000 : ℚ)
    ∧ [10000, 11000, 10500] =
        (simStates [100, 110, 105] [1, 0, -1] (initState 10000)).map
          (fun pr => barValue pr.1 pr.2) :=
  ⟨by norm_num,
    (run_backtest_exclusive_position_invariant [100, 110, 105] [1, 0, -1] 10000
      [10000, 11000, 10500] [⟨Action.BUY, 100, 100⟩, ⟨Action.SELL, 105, 100⟩]
      (by norm_num)
      (by norm_num [run_backtest, runBacktestAux, simStep, tradePhase, initState,
        barValue, round2, round4, roundHalfEven])).1⟩

/-- C2 counterexample: `run_backtest` performs none of the claimed
validations.  An empty bars series yields a successful empty result (no
`EmptySeries` failure), a non-positive capital yields a successful result
(no `InvalidCapital` failure), and a signal series strictly longer than
the bars series yields a successful result (no `LengthMismatch`
failure). -/
theorem run_backtest_no_validation_counterexample :
    run_backtest [] [] 10000 = some ([], [])
    ∧ run_backtest [100] [1] (-1) = some ([-1], [⟨Action.BUY, 100, -1/100⟩])
    ∧ run_backtest [100] [1, -1] 10 = some ([10], [⟨Action.BUY, 100, 1/10⟩]) := by
  refine ⟨?_, ?_, ?_⟩ <;>
    norm_num [run_backtest, runBacktestAux, simStep, tradePhase, initState,
      barValue, round2, round4, roundHalfEven]

/-- C2 amended: assuming every close price is nonzero, `run_backtest`
fails exactly when the signal series is shorter than the bars series (an
out-of-range access, reported as a generic error), and in particular it
returns a normal result on an empty bars series, on a non-positive
capital, and on a signal series longer than the bars series. -/
theorem run_backtest_failure_iff_short_signals (prices : List ℚ) (signals : List ℤ)
    (C : ℚ) (hnz : ∀ p ∈ prices, p ≠ 0) :
    run_backtest prices signals C = none ↔ signals.length < prices.length := by
  unfold run_backtest
  rw [Option.map_eq_none']
  exact runAux_none_iff prices signals (initState C) hnz

theorem run_backtest_failure_iff_short_signals_witness :
    run_backtest [100] [] 5 = none :=
  (run_backtest_failure_iff_short_signals [100] [] 5 (by norm_num)).mpr (by norm_num)

/-- From a long position with only hold signals left, the rest of the
simulation appends `shares * close` for every remaining bar and executes
no further trade. -/
lemma runAux_hold_long (ps : List ℚ) (st : SimState) (h1 : st.position = 1) :
    runBacktestAux ps (List.replicate ps.length 0) st =
      some { st with values := st.values ++ ps.map (fun p => st.shares * p) } := by
  induction ps generalizing st with
  | nil => simp [runBacktestAux]
  | cons p ps ih =>
    have hstep : simStep st p 0 =
        some { st with values := st.values ++ [st.shares * p] } := by
      unfold simStep tradePhase
      rw [if_neg, if_neg]
      · simp [barValue, h1]
      · rintro ⟨hc, _⟩
        exact absurd hc (by decide)
      · rintro ⟨hc, _⟩
        exact absurd hc (by decide)
    simp only [List.length_cons, List.replicate_succ]
    unfold runBacktestAux
    rw [hstep]
    simp only [Option.some_bind]
    rw [ih { st with values := st.values ++ [st.shares * p] } h1]
    simp

/-- C3: on any non-empty bars series and positive capital, the trajectory
of `run_backtest` under the degenerate signal series
`[Buy, Hold, ..., Hold]` equals the buy-and-hold trajectory of
`calculate_buy_hold_benchmark`, element for element (including agreement
of the failure cases). -/
theorem run_backtest_buy_hold_equivalence (prices : List ℚ) (C : ℚ)
    (hne : prices ≠ []) (hC : 0 < C) :
    (run_backtest prices (1 :: List.replicate (prices.length - 1) 0) C).map Prod.fst
      = (calculate_buy_hold_benchmark prices C).map Prod.snd := by
  cases prices with
  | nil => exact absurd rfl hne
  | cons p0 rest =>
    have hC0 : C ≠ 0 := ne_of_gt hC
    by_cases hp0 : p0 = 0
    · subst hp0
      unfold run_backtest runBacktestAux simStep tradePhase
      rw [if_pos ⟨rfl, rfl⟩, if_pos rfl]
      simp [calculate_buy_hold_benchmark]
    · have hstep : simStep (initState C) p0 1 =
          some { position := 1, cash := 0, shares := C / p0,
                 trades := [⟨Action.BUY, round2 p0, round4 (C / p0)⟩],
                 values := [C / p0 * p0] } := by
        unfold simStep tradePhase initState
        rw [if_pos ⟨rfl, rfl⟩, if_neg hp0]
        simp [barValue]
      unfold run_backtest
      have hlen : (p0 :: rest).length - 1 = rest.length := by simp
      rw [hlen]
      unfold runBacktestAux
      rw [hstep]
      simp only [Option.some_bind]
      rw [runAux_hold_long rest _ rfl]
      simp [calculate_buy_hold_benchmark, hp0, hC0]

theorem run_backtest_buy_hold_equivalence_witness :
    (run_backtest [100, 110] (1 :: List.replicate 1 0) 10000).map Prod.fst
      = (calculate_buy_hold_benchmark [100, 110] 10000).map Prod.snd
    ∧ (calculate_buy_hold_benchmark [100, 110] 10000).map Prod.snd
      = some [10000, 11000] :=
  ⟨run_backtest_buy_hold_equivalence [100, 110] 10000 (by simp) (by norm_num),
    by norm_num [calculate_buy_hold_benchmark, round2, roundHalfEven]⟩

/-- C10: the trade log of any successful `run_backtest` run strictly
alternates BUY, SELL, BUY, ... starting with a BUY, so the SELL count
never exceeds the BUY count and the BUY count exceeds the SELL count by
at most one. -/
theorem run_backtest_trade_log_alternates (prices : List ℚ) (signals : List ℤ)
    (C : ℚ) (traj : List ℚ) (tr : List Trade)
    (h : run_backtest prices signals C = some (traj, tr)) :
    (∀ i (hi : i < tr.length),
        (tr[i]).action = if i % 2 = 0 then Action.BUY else Action.SELL)
    ∧ countSells tr ≤ countBuys tr ∧ countBuys tr ≤ countSells tr + 1 := by
  unfold run_backtest at h
  rw [Option.map_eq_some'] at h
  obtain ⟨stf, haux, heq⟩ := h
  injection heq with e1 e2
  subst e2
  have hinv := stateInv_runAux prices signals (initState C)
    stf (stateInv_initState C) haux
  obtain ⟨hpos, halt, hcnt⟩ := hinv
  have hcnt2 : countSells stf.trades ≤ countBuys stf.trades
      ∧ countBuys stf.trades ≤ countSells stf.trades + 1 := by
    rcases hpos with ⟨h0, _⟩ | ⟨h1, _⟩
    · rw [h0] at hcnt
      norm_num at hcnt
      omega
    · rw [h1] at hcnt
      norm_num at hcnt
      omega
  exact ⟨halt, hcnt2.1, hcnt2.2⟩

theorem run_backtest_trade_log_alternates_witness :
    countSells [⟨Action.BUY, 100, 7/100⟩, ⟨Action.SELL, 105, 7/100⟩]
      ≤ countBuys [⟨Action.BUY, 100, 7/100⟩, ⟨Action.SELL, 105, 7/100⟩] :=
  (run_backtest_trade_log_alternates [100, 105] [1, -1] 7 [7, 147/20]
    [⟨Action.BUY, 100, 7/100⟩, ⟨Action.SELL, 105, 7/100⟩]
    (by norm_num [run_backtest, runBacktestAux, simStep, tradePhase, initState,
      barValue, round2, round4, roundHalfEven])).2.1

/-- C4: `run_permutation_test` is not a function of its
(bars, signals, capital) inputs alone: the shuffle draws come from
numpy's global generator, which `random.seed(42)` does not seed, so two
invocations with identical inputs can consume different draw streams and
report different p-values (here 1.0 versus 0.0). -/
theorem run_permutation_test_rng_stream_dependent :
    (run_permutation_test [100, 110, 105] [1, 0, -1] [[1, 0, -1]] 10000).map
        (fun r => r.p_value) = some 1
    ∧ (run_permutation_test [100, 110, 105] [1, 0, -1] [[-1, 0, 1]] 10000).map
        (fun r => r.p_value) = some 0
    ∧ (1 : ℚ) ≠ 0 := by
  refine ⟨?_, ?_, by norm_num⟩ <;>
    norm_num [run_permutation_test, successfulReturns, run_backtest, runBacktestAux,
      simStep, tradePhase, initState, barValue, round2, round4, round1, roundHalfEven,
      List.filterMap_cons]

/-- C5: with `initial_capital = 5000` on closes `[100, 110]` and signals
`[Buy, Hold]`, `run_permutation_test` reports `original_return = 120`
(it simulates with the hard-coded default capital 10000 but divides by
5000), whereas the simulator run with capital 5000 has trajectory
`[5000, 5500]`, whose total return by the report's own formula is 10. -/
theorem run_permutation_test_original_return_capital_bug :
    (run_permutation_test [100, 110] [1, 0] [[1, 0]] 5000).map
        (fun r => r.original_return) = some 120
    ∧ (run_backtest [100, 110] [1, 0] 5000).map Prod.fst = some [5000, 5500]
    ∧ round2 ((5500 - 5000) / 5000 * 100) = 10
    ∧ (120 : ℚ) ≠ 10 := by
  refine ⟨?_, ?_, ?_, by norm_num⟩ <;>
    norm_num [run_permutation_test, successfulReturns, run_backtest, runBacktestAux,
      simStep, tradePhase, initState, barValue, round2, round4, round1, roundHalfEven,
      List.filterMap_cons]

/-- C6: on the three-bar scenario with closes `[100, 110, 105]`, signals
`[Buy, Hold, Sell]` and capital 10000, `run_backtest` produces the trade
log `[BUY at 100 for 100 shares, SELL at 105 for 100 shares]` and the
trajectory `[10000, 11000, 10500]`, and `calculate_metrics` on that
trajectory reports a total return of 5. -/
theorem scenario_buy_hold_sell_metrics :
    run_backtest [100, 110, 105] [1, 0, -1] 10000 =
      some ([10000, 11000, 10500],
        [⟨Action.BUY, 100, 100⟩, ⟨Action.SELL, 105, 100⟩])
    ∧ (calculate_metrics [10000, 11000, 10500] [100, 110, 105] 10000).map
        (fun r => r.1.total_return) = some 5 := by
  constructor
  · norm_num [run_backtest, runBacktestAux, simStep, tradePhase, initState,
      barValue, round2, round4, roundHalfEven]
  · norm_num [calculate_metrics, calculate_buy_hold_benchmark, round2, roundHalfEven]

lemma foldl_min_mem (xs : List ℚ) : ∀ x, xs.foldl min x ∈ x :: xs := by
  induction xs with
  | nil => intro x; simp
  | cons y ys ih =>
    intro x
    simp only [List.foldl_cons]
    have h := ih (min x y)
    rcases List.mem_cons.1 h with h | h
    · rw [h]
      rcases min_choice x y with hc | hc <;> rw [hc]
      · exact List.mem_cons_self x (y :: ys)
      · exact List.mem_cons_of_mem x (List.mem_cons_self y ys)
    · exact List.mem_cons_of_mem x (List.mem_cons_of_mem y h)

lemma minList_mem (l : List ℚ) (hne : l ≠ []) : minList l ∈ l := by
  cases l with
  | nil => exact absurd rfl hne
  | cons x xs => exact foldl_min_mem xs x

/-- Every entry of the drawdown series over a positive trajectory is
nonpositive: each bar sits at or below its running peak, which is
positive. -/
lemma zip_cummax_nonpos (xs : List ℚ) :
    ∀ m : ℚ, (∀ x ∈ xs, 0 < x) → 0 < m →
      ∀ d ∈ List.zipWith (fun v mm => (v - mm) / mm * 100) xs (cummax xs m), d ≤ 0 := by
  induction xs with
  | nil => intro m _ _ d hd; simp [cummax] at hd
  | cons x xs ih =>
    intro m hx hm d hd
    rw [cummax] at hd
    simp only [List.zipWith_cons_cons, List.mem_cons] at hd
    rcases hd with rfl | hd
    · have hM : 0 < max m x := lt_max_of_lt_left hm
      have hnum : x - max m x ≤ 0 := sub_nonpos.2 (le_max_right m x)
      have hdiv : (x - max m x) / max m x ≤ 0 :=
        div_nonpos_iff.2 (Or.inr ⟨hnum, le_of_lt hM⟩)
      exact mul_nonpos_iff.2 (Or.inr ⟨hdiv, by norm_num⟩)
    · exact ih (max m x) (fun y hy => hx y (List.mem_cons_of_mem x hy))
        (lt_max_of_lt_left hm) d hd

lemma maxDrawdown_nonpos (pv : List ℚ) (hne : pv ≠ []) (hpos : ∀ v ∈ pv, 0 < v) :
    maxDrawdown pv ≤ 0 := by
  cases pv with
  | nil => exact absurd rfl hne
  | cons x xs =>
    have hx : 0 < x := hpos x (List.mem_cons_self x xs)
    have hdd : ∀ d ∈ drawdowns (x :: xs), d ≤ 0 := by
      unfold drawdowns peaks
      exact zip_cummax_nonpos (x :: xs) x hpos hx
    have hne2 : drawdowns (x :: xs) ≠ [] := by
      unfold drawdowns peaks cummax
      simp
    exact hdd _ (minList_mem _ hne2)

lemma cummax_chain (xs : List ℚ) :
    ∀ m : ℚ, List.Chain (· ≤ ·) m xs → cummax xs m = xs := by
  induction xs with
  | nil => intro m _; rfl
  | cons y ys ih =>
    intro m hch
    cases hch with
    | cons hmy hys =>
      rw [cummax, max_eq_right hmy, ih y hys]

lemma zipWith_self_eq_map (f : ℚ → ℚ → ℚ) (l : List ℚ) :
    List.zipWith f l l = l.map (fun x => f x x) := by
  induction l with
  | nil => rfl
  | cons x xs ih => simp [ih]

lemma maxDrawdown_zero_of_monotone (pv : List ℚ) (hne : pv ≠ [])
    (hch : List.Chain' (· ≤ ·) pv) : maxDrawdown pv = 0 := by
  cases pv with
  | nil => exact absurd rfl hne
  | cons x xs =>
    have hchain : List.Chain (· ≤ ·) x (x :: xs) :=
      List.Chain.cons le_rfl hch
    have hpk : peaks (x :: xs) = x :: xs := by
      unfold peaks
      exact cummax_chain (x :: xs) x hchain
    have hdd : drawdowns (x :: xs) = (x :: xs).map (fun _ => (0 : ℚ)) := by
      unfold drawdowns
      rw [hpk, zipWith_self_eq_map]
      simp
    unfold maxDrawdown
    rw [hdd]
    have hne2 : (x :: xs).map (fun _ => (0 : ℚ)) ≠ [] := by simp
    have hmem := minList_mem _ hne2
    rcases List.mem_map.1 hmem with ⟨a, _, ha⟩
    exact ha.symm

lemma roundHalfEven_nonpos (x : ℚ) (hx : x ≤ 0) : roundHalfEven x ≤ 0 := by
  unfold roundHalfEven
  simp only []
  have hfl : ⌊x⌋ ≤ 0 := by
    have h := Int.floor_le_floor hx
    rwa [Int.floor_zero] at h
  have hle : (⌊x⌋ : ℚ) ≤ x := Int.floor_le x
  split_ifs with h1 h2 h3
  · exact hfl
  · have hq : (⌊x⌋ : ℚ) < 0 := by linarith
    have hz : ⌊x⌋ < 0 := by exact_mod_cast hq
    omega
  · exact hfl
  · have hfr : (1 : ℚ) / 2 ≤ x - ⌊x⌋ := le_of_not_lt h1
    have hq : (⌊x⌋ : ℚ) < 0 := by linarith
    have hz : ⌊x⌋ < 0 := by exact_mod_cast hq
    omega

lemma roundHalfEven_zero : roundHalfEven 0 = 0 := by
  norm_num [roundHalfEven]

lemma round2_nonpos (x : ℚ) (hx : x ≤ 0) : round2 x ≤ 0 := by
  unfold round2
  have h : roundHalfEven (x * 100) ≤ 0 :=
    roundHalfEven_nonpos (x * 100) (by nlinarith)
  have hc : (roundHalfEven (x * 100) : ℚ) ≤ 0 := by exact_mod_cast h
  exact div_nonpos_iff.2 (Or.inr ⟨hc, by norm_num⟩)

lemma round2_zero : round2 0 = 0 := by
  norm_num [round2, roundHalfEven_zero]

/-- The `max_drawdown` field of a successful `calculate_metrics` result
is the rounded `maxDrawdown` of the trajectory, which is non-empty. -/
lemma calculate_metrics_max_drawdown_eq (pv prices : List ℚ) (C : ℚ)
    (m : Metrics) (bh : List ℚ)
    (h : calculate_metrics pv prices C = some (m, bh)) :
    m.max_drawdown = round2 (maxDrawdown pv) ∧ pv ≠ [] := by
  unfold calculate_metrics at h
  cases hb : calculate_buy_hold_benchmark prices C with
  | none =>
    rw [hb] at h
    exact absurd h (by simp)
  | some pr =>
    obtain ⟨bhT, bhTr⟩ := pr
    rw [hb] at h
    cases hl : pv.getLast? with
    | none =>
      rw [hl] at h
      exact absurd h (by simp)
    | some last =>
      rw [hl] at h
      simp only [Option.some.injEq, Prod.mk.injEq] at h
      obtain ⟨hm, _⟩ := h
      refine ⟨?_, ?_⟩
      · rw [← hm]
      · intro hcon
        subst hcon
        simp at hl

/-- C9: for a trajectory of positive values, the `max_drawdown` reported
by `calculate_metrics` is nonpositive, and it is exactly zero whenever
the trajectory is monotonically non-decreasing. -/
theorem calculate_metrics_max_drawdown_nonpos (pv prices : List ℚ) (C : ℚ)
    (m : Metrics) (bh : List ℚ) (hpos : ∀ v ∈ pv, 0 < v)
    (h : calculate_metrics pv prices C = some (m, bh)) :
    m.max_drawdown ≤ 0 ∧ (List.Chain' (· ≤ ·) pv → m.max_drawdown = 0) := by
  obtain ⟨hmd, hne⟩ := calculate_metrics_max_drawdown_eq pv prices C m bh h
  rw [hmd]
  constructor
  · exact round2_nonpos _ (maxDrawdown_nonpos pv hne hpos)
  · intro hch
    rw [maxDrawdown_zero_of_monotone pv hne hch, round2_zero]

theorem calculate_metrics_max_drawdown_nonpos_witness :
    (Metrics.mk 0 0 0 0 10 0).max_drawdown ≤ 0
    ∧ (Metrics.mk 0 0 0 0 10 0).max_drawdown = 0 := by
  have h := calculate_metrics_max_drawdown_nonpos [9, 10] [100, 100] 10
    (Metrics.mk 0 0 0 0 10 0) [10, 10]
    (by norm_num)
    (by norm_num [calculate_metrics, calculate_buy_hold_benchmark, maxDrawdown,
      drawdowns, peaks, cummax, minList, round2, roundHalfEven])
  exact ⟨h.1, h.2 (by norm_num [List.chain'_cons, List.chain'_singleton])⟩

lemma FVal.add_nan_right (x : FVal) : FVal.add x FVal.nan = FVal.nan := by
  cases x <;> rfl

lemma FVal.add_nan_left (y : FVal) : FVal.add FVal.nan y = FVal.nan := by
  cases y <;> rfl

lemma FVal.sumL_eq_nan (l : List FVal) (h : FVal.nan ∈ l) :
    FVal.sumL l = FVal.nan := by
  induction l with
  | nil => simp at h
  | cons x xs ih =>
    rcases List.mem_cons.1 h with rfl | hx
    · rw [FVal.sumL, FVal.add_nan_left]
    · rw [FVal.sumL, ih hx, FVal.add_nan_right]

lemma FVal.sumL_of_pinf (l : List FVal) (h : FVal.pinf ∈ l) :
    FVal.sumL l = FVal.pinf ∨ FVal.sumL l = FVal.nan := by
  induction l with
  | nil => simp at h
  | cons x xs ih =>
    rcases List.mem_cons.1 h with rfl | hx
    · rw [FVal.sumL]
      cases FVal.sumL xs <;> first | exact Or.inl rfl | exact Or.inr rfl
    · rw [FVal.sumL]
      rcases ih hx with h1 | h1 <;> rw [h1]
      · cases x <;> first | exact Or.inl rfl | exact Or.inr rfl
      · rw [FVal.add_nan_right]
        exact Or.inr rfl

lemma FVal.sumL_of_ninf (l : List FVal) (h : FVal.ninf ∈ l) :
    FVal.sumL l = FVal.ninf ∨ FVal.sumL l = FVal.nan := by
  induction l with
  | nil => simp at h
  | cons x xs ih =>
    rcases List.mem_cons.1 h with rfl | hx
    · rw [FVal.sumL]
      cases FVal.sumL xs <;> first | exact Or.inl rfl | exact Or.inr rfl
    · rw [FVal.sumL]
      rcases ih hx with h1 | h1 <;> rw [h1]
      · cases x <;> first | exact Or.inl rfl | exact Or.inr rfl
      · rw [FVal.add_nan_right]
        exact Or.inr rfl

lemma FVal.divNat_nan (n : ℕ) : FVal.divNat FVal.nan n = FVal.nan := by
  cases n <;> rfl

lemma FVal.meanL_of_pinf (l : List FVal) (h : FVal.pinf ∈ l) :
    FVal.meanL l = FVal.pinf ∨ FVal.meanL l = FVal.nan := by
  rcases FVal.sumL_of_pinf l h with h1 | h1 <;> rw [FVal.meanL, h1]
  · cases l.length with
    | zero => exact Or.inr rfl
    | succ n => exact Or.inl rfl
  · rw [FVal.divNat_nan]
    exact Or.inr rfl

lemma FVal.meanL_of_ninf (l : List FVal) (h : FVal.ninf ∈ l) :
    FVal.meanL l = FVal.ninf ∨ FVal.meanL l = FVal.nan := by
  rcases FVal.sumL_of_ninf l h with h1 | h1 <;> rw [FVal.meanL, h1]
  · cases l.length with
    | zero => exact Or.inr rfl
    | succ n => exact Or.inl rfl
  · rw [FVal.divNat_nan]
    exact Or.inr rfl

/-- An infinity in the sample makes the numpy variance (and hence the
standard deviation) NaN: the deviation of the infinite entry from the
(infinite or NaN) mean is NaN, which propagates through the sum. -/
lemma FVal.varL_nan_of_pinf (l : List FVal) (h : FVal.pinf ∈ l) :
    FVal.varL l = FVal.nan := by
  have hnan : FVal.nan ∈ l.map (fun x => FVal.sq (x.sub (FVal.meanL l))) := by
    refine List.mem_map.2 ⟨FVal.pinf, h, ?_⟩
    rcases FVal.meanL_of_pinf l h with h1 | h1 <;> rw [h1] <;> rfl
  rw [FVal.varL, FVal.meanL, FVal.sumL_eq_nan _ hnan, FVal.divNat_nan]

lemma FVal.varL_nan_of_ninf (l : List FVal) (h : FVal.ninf ∈ l) :
    FVal.varL l = FVal.nan := by
  have hnan : FVal.nan ∈ l.map (fun x => FVal.sq (x.sub (FVal.meanL l))) := by
    refine List.mem_map.2 ⟨FVal.ninf, h, ?_⟩
    rcases FVal.meanL_of_ninf l h with h1 | h1 <;> rw [h1] <;> rfl
  rw [FVal.varL, FVal.meanL, FVal.sumL_eq_nan _ hnan, FVal.divNat_nan]

lemma sharpeValue_eq_zero_of_varL_nan (pv : List ℚ)
    (h : FVal.varL (strategyReturns pv) = FVal.nan) : sharpeValue pv = 0 := by
  simp only [sharpeValue]
  rw [if_neg]
  rintro ⟨_, hstd⟩
  rw [h] at hstd
  exact absurd hstd (by simp [FVal.stdPos])

lemma FVal.sumL_map_fin (qs : List ℚ) :
    FVal.sumL (qs.map FVal.fin) = FVal.fin qs.sum := by
  induction qs with
  | nil => rfl
  | cons q qs ih =>
    rw [List.map_cons, FVal.sumL, ih]
    show FVal.fin (q + qs.sum) = FVal.fin ((q :: qs).sum)
    rw [List.sum_cons]

lemma FVal.meanL_map_fin (qs : List ℚ) (h : qs ≠ []) :
    FVal.meanL (qs.map FVal.fin) = FVal.fin (meanQ qs) := by
  rw [FVal.meanL, FVal.sumL_map_fin, List.length_map]
  cases qs with
  | nil => exact absurd rfl h
  | cons q qs => rfl

lemma map_fin_sq_sub (qs : List ℚ) (mu : ℚ) :
    (qs.map FVal.fin).map (fun x => FVal.sq (x.sub (FVal.fin mu)))
      = (qs.map (fun q => (q - mu) ^ 2)).map FVal.fin := by
  induction qs with
  | nil => rfl
  | cons q qs ih =>
    simp only [List.map_cons] at *
    rw [ih]
    congr 1
    show FVal.fin ((q + -mu) * (q + -mu)) = FVal.fin ((q - mu) ^ 2)
    congr 1
    ring

lemma FVal.varL_map_fin (qs : List ℚ) (h : qs ≠ []) :
    FVal.varL (qs.map FVal.fin) = FVal.fin (varQ qs) := by
  rw [FVal.varL, FVal.meanL_map_fin qs h, map_fin_sq_sub, FVal.meanL,
    FVal.sumL_map_fin, List.length_map, List.length_map]
  cases qs with
  | nil => exact absurd rfl h
  | cons q qs => rfl

lemma FVal.stdPos_fin (v : ℚ) : FVal.stdPos (FVal.fin v) = true ↔ 0 < v := by
  simp [FVal.stdPos]

/-- C7 counterexample: the returns filter of `calculate_metrics` keeps
non-finite entries.  On the trajectory `[0, 1, 2]` the filtered sample
contains `+inf` (from the `1/0` step ratio), contradicting the claim that
every non-finite entry is excluded; consequently on `[0, 1, 2, 3]` the
code's sharpe ratio is 0 (NaN standard deviation) while the claim's
prescription (filter out all non-finite entries, then apply the formula)
yields a nonzero value. -/
theorem calculate_metrics_returns_filter_counterexample :
    FVal.pinf ∈ strategyReturns [0, 1, 2]
    ∧ FVal.pinf.isFinite = false
    ∧ sharpeValue [0, 1, 2, 3] = 0
    ∧ sharpeSpecFiltered [0, 1, 2, 3] ≠ 0 := by
  refine ⟨?_, rfl, ?_, ?_⟩
  · have h : strategyReturns [0, 1, 2] = [FVal.pinf, FVal.fin 1] := by
      norm_num [strategyReturns, stepRatio, FVal.isNan, List.filter]
    rw [h]
    exact List.mem_cons_self _ _
  · have hmem : FVal.pinf ∈ strategyReturns [0, 1, 2, 3] := by
      have h : strategyReturns [0, 1, 2, 3]
          = [FVal.pinf, FVal.fin 1, FVal.fin (1/2)] := by
        norm_num [strategyReturns, stepRatio, FVal.isNan, List.filter]
      rw [h]
      exact List.mem_cons_self _ _
    exact sharpeValue_eq_zero_of_varL_nan _ (FVal.varL_nan_of_pinf _ hmem)
  · have hqs : (List.zipWith stepRatio ([0, 1, 2, 3] : List ℚ)
        ([0, 1, 2, 3] : List ℚ).tail).filterMap FVal.finPart = [1, 1/2] := by
      norm_num [stepRatio, FVal.finPart, List.filterMap_cons]
    simp only [sharpeSpecFiltered]
    rw [hqs, if_pos]
    · have h1 : (0 : ℝ) < (meanQ [1, 1/2] : ℝ) * (252 * 24) := by
        norm_num [meanQ]
      have h2 : (0 : ℝ) < Real.sqrt (varQ [1, 1/2]) * Real.sqrt (252 * 24) := by
        apply mul_pos <;> apply Real.sqrt_pos.2 <;> norm_num [varQ, meanQ]
      exact ne_of_gt (div_pos h1 h2)
    · exact ⟨by norm_num, by norm_num [varQ, meanQ]⟩

/-- C7 amended: the returns filter of `calculate_metrics` excludes
exactly the NaN ratios; infinite ratios stay in the sample, and whenever
one is present the standard deviation is NaN, the positivity guard
fails, and the (unrounded) sharpe ratio is 0; when the retained sample
is all-finite, the sharpe ratio equals
`mean * A / (std * sqrt A)` with `A = 252 * 24` if the sample is
non-empty with positive variance, and 0 otherwise. -/
theorem calculate_metrics_sharpe_amended (pv : List ℚ) :
    FVal.nan ∉ strategyReturns pv
    ∧ ((FVal.pinf ∈ strategyReturns pv ∨ FVal.ninf ∈ strategyReturns pv) →
        sharpeValue pv = 0)
    ∧ ∀ qs : List ℚ, strategyReturns pv = qs.map FVal.fin →
        sharpeValue pv =
          if 0 < qs.length ∧ 0 < varQ qs then
            (meanQ qs : ℝ) * (252 * 24) /
              (Real.sqrt (varQ qs) * Real.sqrt (252 * 24))
          else 0 := by
  refine ⟨?_, ?_, ?_⟩
  · intro hmem
    have h := List.mem_filter.1 hmem
    simp [FVal.isNan] at h
  · rintro (h | h)
    · exact sharpeValue_eq_zero_of_varL_nan pv (FVal.varL_nan_of_pinf _ h)
    · exact sharpeValue_eq_zero_of_varL_nan pv (FVal.varL_nan_of_ninf _ h)
  · intro qs hqs
    by_cases hq : qs = []
    · subst hq
      simp only [List.map_nil] at hqs
      simp [sharpeValue, hqs]
    · simp only [sharpeValue, hqs]
      rw [FVal.varL_map_fin qs hq, FVal.meanL_map_fin qs hq]
      have hcond : (0 < (qs.map FVal.fin).length
            ∧ FVal.stdPos (FVal.fin (varQ qs)) = true)
          ↔ (0 < qs.length ∧ 0 < varQ qs) := by
        rw [List.length_map]
        exact and_congr_right (fun _ => FVal.stdPos_fin _)
      rw [if_congr hcond rfl rfl]
      simp only [FVal.toR]

theorem calculate_metrics_sharpe_amended_witness :
    sharpeValue [1, 2, 1] =
      if 0 < ([1, -(1/2)] : List ℚ).length ∧ 0 < varQ [1, -(1/2)] then
        (meanQ [1, -(1/2)] : ℝ) * (252 * 24) /
          (Real.sqrt (varQ [1, -(1/2)]) * Real.sqrt (252 * 24))
      else 0 :=
  (calculate_metrics_sharpe_amended [1, 2, 1]).2.2 [1, -(1/2)]
    (by norm_num [strategyReturns, stepRatio, FVal.isNan, List.filter])

/-- C8 counterexample: the reported `p_value` field is the ratio rounded
to four decimals, not the exact ratio.  With three successful shuffled
runs of which one ties the original, the ratio is `1/3` but the field
holds `0.3333`. -/
theorem run_permutation_test_p_value_rounding_counterexample :
    (run_permutation_test [100, 110, 105] [1, 0, -1]
        [[1, 0, -1], [0, 1, -1], [-1, 0, 1]] 10000).map (fun r => r.p_value)
      = some (3333 / 10000)
    ∧ successfulReturns [100, 110, 105] [[1, 0, -1], [0, 1, -1], [-1, 0, 1]] 10000
      = [5, -50/11, 0]
    ∧ (3333 / 10000 : ℚ) ≠ 1 / 3 := by
  refine ⟨?_, ?_, by norm_num⟩ <;>
    norm_num [run_permutation_test, successfulReturns, run_backtest, runBacktestAux,
      simStep, tradePhase, initState, barValue, round2, round4, round1, roundHalfEven,
      List.filterMap_cons]

/-- C8 amended: in a successful report, `num_permutations` is the count
of successful shuffled runs (at most the requested count), `p_value` is
the tie-inclusive ratio `count(shuffled ≥ original) / count(successful)`
rounded to 4 decimals, `percentile` is `(1 - ratio) * 100` rounded to 1
decimal, and `significant` holds exactly when the unrounded ratio is
below `0.05`. -/
theorem run_permutation_test_report_fields (prices : List ℚ) (signals : List ℤ)
    (shuffles : List (List ℤ)) (C : ℚ) (pv : List ℚ) (tr : List Trade) (last : ℚ)
    (rep : PermReport)
    (hbt : run_backtest prices signals 10000 = some (pv, tr))
    (hlast : pv.getLast? = some last)
    (hrep : run_permutation_test prices signals shuffles C = some rep) :
    rep.num_permutations = (successfulReturns prices shuffles C).length
    ∧ (successfulReturns prices shuffles C).length ≤ shuffles.length
    ∧ rep.original_return = round2 ((last - C) / C * 100)
    ∧ rep.p_value = round4 ((((successfulReturns prices shuffles C).filter
          (fun x => (last - C) / C * 100 ≤ x)).length : ℚ)
        / ((successfulReturns prices shuffles C).length : ℚ))
    ∧ rep.percentile = round1 ((1 - (((successfulReturns prices shuffles C).filter
          (fun x => (last - C) / C * 100 ≤ x)).length : ℚ)
        / ((successfulReturns prices shuffles C).length : ℚ)) * 100)
    ∧ (rep.significant = true ↔
        (((successfulReturns prices shuffles C).filter
          (fun x => (last - C) / C * 100 ≤ x)).length : ℚ)
        / ((successfulReturns prices shuffles C).length : ℚ) < 1 / 20) := by
  unfold run_permutation_test at hrep
  rw [hbt] at hrep
  simp only [] at hrep
  rw [hlast] at hrep
  simp only [] at hrep
  by_cases hC : C = 0
  · rw [if_pos hC] at hrep
    exact absurd hrep (by simp)
  rw [if_neg hC] at hrep
  by_cases h0 : (successfulReturns prices shuffles C).length = 0
  · rw [if_pos h0] at hrep
    exact absurd hrep (by simp)
  rw [if_neg h0] at hrep
  injection hrep with hrep
  subst hrep
  refine ⟨rfl, ?_, rfl, rfl, rfl, ?_⟩
  · exact List.length_filterMap_le _ _
  · exact decide_eq_true_iff

theorem run_permutation_test_report_fields_witness :
    (PermReport.mk 5 (-91/20) 0 100 1 true).num_permutations
      = (successfulReturns [100, 110, 105] [[0, 1, -1]] 10000).length :=
  (run_permutation_test_report_fields [100, 110, 105] [1, 0, -1] [[0, 1, -1]] 10000
    [10000, 11000, 10500] [⟨Action.BUY, 100, 100⟩, ⟨Action.SELL, 105, 100⟩] 10500
    (PermReport.mk 5 (-91/20) 0 100 1 true)
    (by norm_num [run_backtest, runBacktestAux, simStep, tradePhase, initState,
      barValue, round2, round4, roundHalfEven])
    rfl
    (by norm_num [run_permutation_test, successfulReturns, run_backtest,
      runBacktestAux, simStep, tradePhase, initState, barValue, round2, round4,
      round1, roundHalfEven, List.filterMap_cons])).1

end StratTester
